import Mathlib

/-!
Verification of the statistical benchmarking helper `perfometer`
(`perfometer/_core.py`) over a shallow embedding in Lean 4.

The embedding models Python floats as real numbers, Python exceptions as
an explicit `Except` error channel, and the benchmark's timer as an
oracle `dur : ℕ → ℝ` giving the measured duration of the k-th run of the
target operation (the value `end - start` produced by the timer pair
around the k-th call).  The standard normal quantile function used by
`statistics.NormalDist().inv_cdf` is modelled as the inverse of the
genuine Gaussian cumulative distribution function, defined by an
integral, and its properties (strict monotonicity, value at 1/2,
rational bounds at 3/4) are proved from real analysis.

The Python `while` loop of `benchmark` need not terminate, so the loop
is embedded with explicit fuel: `none` means the loop was still running
when the fuel ran out, `some r` means the call finished with outcome
`r`.
-/

open MeasureTheory Real Filter Set intervalIntegral

open scoped Classical Topology

namespace Perfometer

/-- Errors raised by the Python code: `statistics.StatisticsError`
(raised by `inv_cdf` outside its domain and by `stdev`/`mean` on too few
data points), `ZeroDivisionError` (float division by zero), and
`ValueError` (raised by `check_max_time` when the time budget is
exceeded, and by `min`/`max` on an empty sequence). -/
inductive PyError where
  | statisticsError
  | zeroDivisionError
  | valueError
  deriving DecidableEq

/-! ## The standard normal distribution

`statistics.NormalDist().inv_cdf` computes the quantile function of the
standard normal distribution and raises `StatisticsError` when its
argument is outside the open interval (0, 1). -/

noncomputable section

/-- Unnormalised density of the standard normal distribution. -/
def gauss (t : ℝ) : ℝ := Real.exp (-t ^ 2 / 2)

/-- Cumulative distribution function of the standard normal
distribution. -/
def normal_cdf (x : ℝ) : ℝ := (∫ t in Set.Iic x, gauss t) / Real.sqrt (2 * Real.pi)

/-- Quantile function of the standard normal distribution: the inverse
of `normal_cdf` (meaningful on (0, 1), where `normal_cdf` is proved to
attain every value). -/
def inv_cdf (p : ℝ) : ℝ := Function.invFun normal_cdf p

/-! ## `_core.py`: the sample-size estimator -/

/-- Model of `get_z_value`: `_NORMAL_DISTRIBUTION.inv_cdf((1 + confidence_level) / 2)`.
`inv_cdf(p)` raises `StatisticsError` when `p <= 0.0 or p >= 1.0`. -/
def get_z_value (confidence_level : ℝ) : Except PyError ℝ :=
  if (1 + confidence_level) / 2 ≤ 0 ∨ 1 ≤ (1 + confidence_level) / 2 then
    .error .statisticsError
  else
    .ok (inv_cdf ((1 + confidence_level) / 2))

/-- Model of `statistics.stdev`: the square root of the
Bessel-corrected sample variance; raises `StatisticsError` on fewer
than two data points. -/
def stdev (data : List ℝ) : Except PyError ℝ :=
  if data.length < 2 then
    .error .statisticsError
  else
    .ok (Real.sqrt
      ((data.map (fun x => (x - data.sum / data.length) ^ 2)).sum / (data.length - 1)))

/-- Model of `get_required_sample_size`: computes the z-value, then the
sample standard deviation, then `max(2, ceil((z * s / allowed_deviation) ** 2))`.
Python float division raises `ZeroDivisionError` when the divisor is
zero, so that case carries an explicit error. -/
def get_required_sample_size (data : List ℝ) (allowed_deviation : ℝ)
    (confidence_level : ℝ) : Except PyError ℤ :=
  match get_z_value confidence_level with
  | .error e => .error e
  | .ok z_value =>
    match stdev data with
    | .error e => .error e
    | .ok std_dev =>
      if allowed_deviation = 0 then .error .zeroDivisionError
      else .ok (max 2 ⌈(z_value * std_dev / allowed_deviation) ^ 2⌉)

/-! ## `_core.py`: the adaptive benchmark loop -/

/-- Configuration of one `benchmark` call (the keyword-only parameters
`_allowed_deviation`, `_confidence_level`, `_warmup`, `_min_runs`,
`_max_time`; `_wall_time` only selects which timer produces the
duration oracle `dur`). -/
structure Config where
  allowed_deviation : ℝ
  confidence_level : ℝ
  warmup : Bool
  min_runs : ℕ
  max_time : ℝ

/-- Number of runs of the initial fixed phase:
`range(_min_runs + _warmup)` with `True = 1`. -/
def initCount (cfg : Config) : ℕ := cfg.min_runs + (if cfg.warmup then 1 else 0)

/-- The one-time warmup trim `timings = timings[1:]`. -/
def dropWarmup (cfg : Config) (timings : List ℝ) : List ℝ :=
  if cfg.warmup then timings.drop 1 else timings

/-- Model of the nested `run` closure followed by `check_max_time`: the
k-th run appends its duration to the current timings list and then
fails with `ValueError` when the sum of that list exceeds `_max_time`. -/
def run (dur : ℕ → ℝ) (max_time : ℝ) (k : ℕ) (timings : List ℝ) :
    Except PyError (List ℝ) :=
  let t := timings ++ [dur k]
  if t.sum > max_time then .error .valueError else .ok t

/-- The initial fixed phase: `for _ in range(count): run()`, performing
runs `k, k+1, ...` on the current timings list. -/
def runSeq (dur : ℕ → ℝ) (max_time : ℝ) :
    ℕ → ℕ → List ℝ → Except PyError (List ℝ)
  | 0, _, timings => .ok timings
  | count + 1, k, timings =>
    match run dur max_time k timings with
    | .error e => .error e
    | .ok t => runSeq dur max_time count (k + 1) t

/-- The adaptive `while` loop of `benchmark`, with explicit fuel:
`while len(timings) < get_required_sample_size(timings, ...): run()`.
The required sample size is recomputed from the current timings on
every iteration; `none` means the fuel ran out before the loop
finished. -/
def benchLoop (dur : ℕ → ℝ) (cfg : Config) :
    ℕ → ℕ → List ℝ → Option (Except PyError (List ℝ))
  | 0, _, _ => none
  | fuel + 1, k, timings =>
    match get_required_sample_size timings cfg.allowed_deviation cfg.confidence_level with
    | .error e => some (.error e)
    | .ok required =>
      if (timings.length : ℤ) < required then
        match run dur cfg.max_time k timings with
        | .error e => some (.error e)
        | .ok t => benchLoop dur cfg fuel (k + 1) t
      else some (.ok timings)

/-- Model of `benchmark`: the initial fixed phase of
`_min_runs + _warmup` runs starting from an empty timings list, then
the one-time warmup trim, then the adaptive loop.  After the trim the
nested closures `run`/`check_max_time` read the rebound (trimmed) local
`timings`, so every later budget check sums only the post-warmup
timings. -/
def benchmark (dur : ℕ → ℝ) (cfg : Config) (fuel : ℕ) :
    Option (Except PyError (List ℝ)) :=
  match runSeq dur cfg.max_time (initCount cfg) 0 [] with
  | .error e => some (.error e)
  | .ok timings => benchLoop dur cfg fuel (initCount cfg) (dropWarmup cfg timings)

/-! ## Instrumented benchmark

`run` calls `func(*args, **kwargs)` and discards the result.  The
instrumented copy of the pipeline invokes an explicit target
`func : α → β` on the caller-supplied argument bundle `arg` at every
run, records the argument bundle each invocation receives, and discards
the target's value, so that argument forwarding and the irrelevance of
the return value are provable facts about the embedding. -/

/-- Instrumented `run`: invokes the target on the supplied arguments,
discards its value, and records the arguments the target received. -/
def runT {α β : Type} (func : α → β) (arg : α) (dur : ℕ → ℝ) (max_time : ℝ)
    (k : ℕ) (timings : List ℝ) : Except PyError (List ℝ) × List α :=
  let _discarded : β := func arg
  (run dur max_time k timings, [arg])

/-- Instrumented initial phase, accumulating the invocation trace. -/
def runSeqT {α β : Type} (func : α → β) (arg : α) (dur : ℕ → ℝ) (max_time : ℝ) :
    ℕ → ℕ → List ℝ → List α → Except PyError (List ℝ) × List α
  | 0, _, timings, trace => (.ok timings, trace)
  | count + 1, k, timings, trace =>
    match runT func arg dur max_time k timings with
    | (.error e, calls) => (.error e, trace ++ calls)
    | (.ok t, calls) => runSeqT func arg dur max_time count (k + 1) t (trace ++ calls)

/-- Instrumented adaptive loop, accumulating the invocation trace. -/
def benchLoopT {α β : Type} (func : α → β) (arg : α) (dur : ℕ → ℝ) (cfg : Config) :
    ℕ → ℕ → List ℝ → List α → Option (Except PyError (List ℝ)) × List α
  | 0, _, _, trace => (none, trace)
  | fuel + 1, k, timings, trace =>
    match get_required_sample_size timings cfg.allowed_deviation cfg.confidence_level with
    | .error e => (some (.error e), trace)
    | .ok required =>
      if (timings.length : ℤ) < required then
        match runT func arg dur cfg.max_time k timings with
        | (.error e, calls) => (some (.error e), trace ++ calls)
        | (.ok t, calls) => benchLoopT func arg dur cfg fuel (k + 1) t (trace ++ calls)
      else (some (.ok timings), trace)

/-- Instrumented `benchmark`: same pipeline as `benchmark`, also
returning the list of argument bundles passed to the target, one entry
per invocation in execution order. -/
def benchmarkT {α β : Type} (func : α → β) (arg : α) (dur : ℕ → ℝ) (cfg : Config)
    (fuel : ℕ) : Option (Except PyError (List ℝ)) × List α :=
  match runSeqT func arg dur cfg.max_time (initCount cfg) 0 [] [] with
  | (.error e, trace) => (some (.error e), trace)
  | (.ok timings, trace) =>
    benchLoopT func arg dur cfg fuel (initCount cfg) (dropWarmup cfg timings) trace

/-! ## `_core.py`: `describe_timings` -/

/-- The mapping returned by `describe_timings`. -/
structure TimingStats where
  count : ℕ
  min : ℝ
  max : ℝ
  mean : ℝ
  stdev : ℝ
  total : ℝ

/-- Model of `describe_timings`.  The dict literal evaluates its values
in order: `len` always succeeds; `min`/`max` raise `ValueError` on an
empty sequence; `statistics.mean` needs at least one point;
`statistics.stdev` raises `StatisticsError` on fewer than two. -/
def describe_timings (timings : List ℝ) : Except PyError TimingStats :=
  match timings with
  | [] => .error .valueError
  | x :: xs =>
    match stdev (x :: xs) with
    | .error e => .error e
    | .ok sd =>
      .ok { count := (x :: xs).length
            min := xs.foldl min x
            max := xs.foldl max x
            mean := (x :: xs).sum / (x :: xs).length
            stdev := sd
            total := (x :: xs).sum }

/-- The Bessel-corrected (n−1 denominator) sample standard deviation,
as the spec states it: the square root of the sum of squared deviations
from the mean divided by n−1. -/
def besselStdev (data : List ℝ) : ℝ :=
  Real.sqrt ((data.map (fun x => (x - data.sum / data.length) ^ 2)).sum / (data.length - 1))

end

/-! ## Properties of the standard normal distribution -/

lemma gauss_pos (t : ℝ) : 0 < gauss t := Real.exp_pos _

lemma gauss_le_one (t : ℝ) : gauss t ≤ 1 := by
  rw [gauss, Real.exp_le_one_iff]
  nlinarith [sq_nonneg t]

lemma one_sub_le_gauss (t : ℝ) : 1 - t ^ 2 / 2 ≤ gauss t := by
  have h := Real.add_one_le_exp (-t ^ 2 / 2)
  calc 1 - t ^ 2 / 2 = -t ^ 2 / 2 + 1 := by ring
    _ ≤ Real.exp (-t ^ 2 / 2) := h
    _ = gauss t := rfl

lemma gauss_eq_exp_neg_mul_sq : gauss = fun t : ℝ => Real.exp (-(1 / 2 : ℝ) * t ^ 2) := by
  funext t
  rw [gauss]
  congr 1
  ring

lemma integrable_gauss : MeasureTheory.Integrable gauss := by
  rw [gauss_eq_exp_neg_mul_sq]
  exact integrable_exp_neg_mul_sq (by norm_num)

lemma integral_gauss : ∫ t, gauss t = Real.sqrt (2 * Real.pi) := by
  rw [gauss_eq_exp_neg_mul_sq, integral_gaussian]
  congr 1
  ring

lemma sqrt_two_pi_pos : 0 < Real.sqrt (2 * Real.pi) :=
  Real.sqrt_pos.mpr (by positivity)

lemma normal_cdf_sub (a b : ℝ) :
    normal_cdf b - normal_cdf a = (∫ t in a..b, gauss t) / Real.sqrt (2 * Real.pi) := by
  rw [normal_cdf, normal_cdf, div_sub_div_same,
    intervalIntegral.integral_Iic_sub_Iic integrable_gauss.integrableOn
      integrable_gauss.integrableOn]

lemma normal_cdf_strictMono : StrictMono normal_cdf := by
  intro a b hab
  have hpos := intervalIntegral_pos_of_pos (f := gauss)
    integrable_gauss.intervalIntegrable gauss_pos hab
  have hsub := normal_cdf_sub a b
  have : 0 < normal_cdf b - normal_cdf a := by
    rw [hsub]
    exact div_pos hpos sqrt_two_pi_pos
  linarith

lemma normal_cdf_eq_add (x : ℝ) :
    normal_cdf x = normal_cdf 0 + (∫ t in (0:ℝ)..x, gauss t) / Real.sqrt (2 * Real.pi) := by
  have := normal_cdf_sub 0 x
  linarith

lemma continuous_normal_cdf : Continuous normal_cdf := by
  have h : Continuous fun x : ℝ =>
      normal_cdf 0 + (∫ t in (0:ℝ)..x, gauss t) / Real.sqrt (2 * Real.pi) :=
    continuous_const.add ((integrable_gauss.continuous_primitive 0).div_const _)
  exact h.congr fun x => (normal_cdf_eq_add x).symm

lemma normal_cdf_total :
    (∫ t in Set.Iic (0:ℝ), gauss t) + ∫ t in Set.Ioi (0:ℝ), gauss t
      = Real.sqrt (2 * Real.pi) := by
  rw [intervalIntegral.integral_Iic_add_Ioi integrable_gauss.integrableOn
    integrable_gauss.integrableOn, integral_gauss]

lemma normal_cdf_symm :
    (∫ t in Set.Iic (0:ℝ), gauss t) = ∫ t in Set.Ioi (0:ℝ), gauss t := by
  have h := integral_comp_neg_Iic (0:ℝ) gauss
  have hg : ∀ t : ℝ, gauss (-t) = gauss t := by
    intro t
    rw [gauss, gauss, neg_sq]
  simp only [hg, neg_zero] at h
  exact h

lemma normal_cdf_zero : normal_cdf 0 = 1 / 2 := by
  have htot := normal_cdf_total
  have hsym := normal_cdf_symm
  rw [normal_cdf]
  rw [hsym] at htot ⊢
  have hs := sqrt_two_pi_pos
  rw [div_eq_iff hs.ne']
  linarith

lemma normal_cdf_tendsto_atTop : Tendsto normal_cdf atTop (𝓝 1) := by
  have h1 : Tendsto (fun x : ℝ => ∫ t in (0:ℝ)..x, gauss t) atTop
      (𝓝 (∫ t in Set.Ioi (0:ℝ), gauss t)) :=
    intervalIntegral_tendsto_integral_Ioi 0 integrable_gauss.integrableOn tendsto_id
  have h2 := (h1.div_const (Real.sqrt (2 * Real.pi))).const_add (normal_cdf 0)
  have hlim : normal_cdf 0 + (∫ t in Set.Ioi (0:ℝ), gauss t) / Real.sqrt (2 * Real.pi)
      = 1 := by
    rw [normal_cdf, div_add_div_same, div_eq_one_iff_eq sqrt_two_pi_pos.ne']
    exact normal_cdf_total
  rw [hlim] at h2
  exact h2.congr fun x => (normal_cdf_eq_add x).symm

lemma normal_cdf_tendsto_atBot : Tendsto normal_cdf atBot (𝓝 0) := by
  have h1 : Tendsto (fun x : ℝ => ∫ t in x..(0:ℝ), gauss t) atBot
      (𝓝 (∫ t in Set.Iic (0:ℝ), gauss t)) :=
    intervalIntegral_tendsto_integral_Iic 0 integrable_gauss.integrableOn tendsto_id
  have h2 := Tendsto.sub (tendsto_const_nhds (x := normal_cdf 0))
    (h1.div_const (Real.sqrt (2 * Real.pi)))
  have hlim : normal_cdf 0 - (∫ t in Set.Iic (0:ℝ), gauss t) / Real.sqrt (2 * Real.pi)
      = 0 := by
    rw [normal_cdf]
    ring
  rw [hlim] at h2
  refine h2.congr fun x => ?_
  have := normal_cdf_sub x 0
  linarith

lemma normal_cdf_surj {p : ℝ} (h0 : 0 < p) (h1 : p < 1) : ∃ x, normal_cdf x = p := by
  obtain ⟨a, ha⟩ : ∃ a, normal_cdf a < p :=
    ((tendsto_order.mp normal_cdf_tendsto_atBot).2 p h0).exists
  obtain ⟨b, hb⟩ : ∃ b, p < normal_cdf b :=
    ((tendsto_order.mp normal_cdf_tendsto_atTop).1 p h1).exists
  have hab : a < b := normal_cdf_strictMono.lt_iff_lt.mp (ha.trans hb)
  have hsub := intermediate_value_Icc hab.le continuous_normal_cdf.continuousOn
  obtain ⟨x, _, hx⟩ := hsub ⟨ha.le, hb.le⟩
  exact ⟨x, hx⟩

lemma normal_cdf_inv_cdf {p : ℝ} (h0 : 0 < p) (h1 : p < 1) :
    normal_cdf (inv_cdf p) = p :=
  Function.invFun_eq (normal_cdf_surj h0 h1)

lemma inv_cdf_lt_inv_cdf {p q : ℝ} (hp0 : 0 < p) (hq1 : q < 1) (hpq : p < q) :
    inv_cdf p < inv_cdf q := by
  apply normal_cdf_strictMono.lt_iff_lt.mp
  rw [normal_cdf_inv_cdf hp0 (hpq.trans hq1), normal_cdf_inv_cdf (hp0.trans hpq) hq1]
  exact hpq

lemma inv_cdf_le_inv_cdf {p q : ℝ} (hp0 : 0 < p) (hq1 : q < 1) (hpq : p ≤ q) :
    inv_cdf p ≤ inv_cdf q := by
  rcases eq_or_lt_of_le hpq with h | h
  · rw [h]
  · exact (inv_cdf_lt_inv_cdf hp0 hq1 h).le

lemma inv_cdf_one_half : inv_cdf (1 / 2) = 0 := by
  apply normal_cdf_strictMono.injective
  rw [normal_cdf_inv_cdf (by norm_num) (by norm_num), normal_cdf_zero]

lemma inv_cdf_nonneg {p : ℝ} (hp : 1 / 2 ≤ p) (hp1 : p < 1) : 0 ≤ inv_cdf p := by
  rw [← inv_cdf_one_half]
  exact inv_cdf_le_inv_cdf (by norm_num) hp1 hp

lemma inv_cdf_pos {p : ℝ} (hp : 1 / 2 < p) (hp1 : p < 1) : 0 < inv_cdf p := by
  rw [← inv_cdf_one_half]
  exact inv_cdf_lt_inv_cdf (by norm_num) hp1 hp

lemma intervalIntegral_gauss_le {x : ℝ} (hx : 0 ≤ x) : (∫ t in (0:ℝ)..x, gauss t) ≤ x := by
  have h := intervalIntegral.integral_mono_on (μ := MeasureTheory.volume)
    (f := gauss) (g := fun _ => (1:ℝ)) hx
    integrable_gauss.intervalIntegrable intervalIntegrable_const
    (fun t _ => gauss_le_one t)
  simpa using h

lemma le_intervalIntegral_gauss {x : ℝ} (hx : 0 ≤ x) :
    x - x ^ 3 / 6 ≤ ∫ t in (0:ℝ)..x, gauss t := by
  have hint : IntervalIntegrable (fun t : ℝ => 1 - t ^ 2 / 2) MeasureTheory.volume 0 x :=
    (continuous_const.sub ((continuous_pow 2).div_const 2)).intervalIntegrable 0 x
  have h := intervalIntegral.integral_mono_on (μ := MeasureTheory.volume)
    (f := fun t : ℝ => 1 - t ^ 2 / 2) (g := gauss) hx
    hint integrable_gauss.intervalIntegrable
    (fun t _ => one_sub_le_gauss t)
  have hcalc : (∫ t in (0:ℝ)..x, (1 - t ^ 2 / 2)) = x - x ^ 3 / 6 := by
    rw [intervalIntegral.integral_sub intervalIntegrable_const
      (((continuous_pow 2).div_const 2).intervalIntegrable 0 x)]
    rw [intervalIntegral.integral_div, integral_pow]
    norm_num
    ring
  rw [hcalc] at h
  exact h

lemma normal_cdf_three_fifths_lt : normal_cdf (3 / 5) < 3 / 4 := by
  rw [normal_cdf_eq_add, normal_cdf_zero]
  have hs : 12 / 5 < Real.sqrt (2 * Real.pi) := by
    rw [Real.lt_sqrt (by norm_num)]
    nlinarith [Real.pi_gt_three]
  have hI := intervalIntegral_gauss_le (x := 3 / 5) (by norm_num)
  have hs0 := sqrt_two_pi_pos
  have key : (∫ t in (0:ℝ)..(3/5:ℝ), gauss t) / Real.sqrt (2 * Real.pi) < 1 / 4 := by
    rw [div_lt_iff hs0]
    nlinarith
  linarith

lemma lt_normal_cdf_seventeen_twentieths : 3 / 4 < normal_cdf (17 / 20) := by
  rw [normal_cdf_eq_add, normal_cdf_zero]
  have hs : Real.sqrt (2 * Real.pi) < 35887 / 12000 := by
    rw [Real.sqrt_lt' (by norm_num)]
    nlinarith [Real.pi_lt_d2]
  have hI := le_intervalIntegral_gauss (x := 17 / 20) (by norm_num)
  have hs0 := sqrt_two_pi_pos
  have key : 1 / 4 < (∫ t in (0:ℝ)..(17/20:ℝ), gauss t) / Real.sqrt (2 * Real.pi) := by
    rw [lt_div_iff hs0]
    nlinarith
  linarith

lemma inv_cdf_three_quarters_gt : 3 / 5 < inv_cdf (3 / 4) := by
  by_contra hle
  push_neg at hle
  have hmono := normal_cdf_strictMono.monotone hle
  rw [normal_cdf_inv_cdf (by norm_num) (by norm_num)] at hmono
  linarith [normal_cdf_three_fifths_lt]

lemma inv_cdf_three_quarters_lt : inv_cdf (3 / 4) < 17 / 20 := by
  by_contra hle
  push_neg at hle
  have hmono := normal_cdf_strictMono.monotone hle
  rw [normal_cdf_inv_cdf (by norm_num) (by norm_num)] at hmono
  linarith [lt_normal_cdf_seventeen_twentieths]

/-! ## Evaluation lemmas for the sample-size estimator -/

lemma besselStdev_nonneg (data : List ℝ) : 0 ≤ besselStdev data :=
  Real.sqrt_nonneg _

lemma stdev_ok {data : List ℝ} (h : 2 ≤ data.length) :
    stdev data = .ok (besselStdev data) := by
  rw [stdev, if_neg (by omega), besselStdev]

lemma stdev_short {data : List ℝ} (h : data.length < 2) :
    stdev data = .error .statisticsError := by
  rw [stdev, if_pos h]

lemma get_z_value_ok {c : ℝ} (h0 : -1 < c) (h1 : c < 1) :
    get_z_value c = .ok (inv_cdf ((1 + c) / 2)) := by
  rw [get_z_value, if_neg]
  push_neg
  constructor <;> linarith

lemma grss_ok {data : List ℝ} {d c : ℝ} (h2 : 2 ≤ data.length)
    (hc0 : -1 < c) (hc1 : c < 1) (hd : d ≠ 0) :
    get_required_sample_size data d c =
      .ok (max 2 ⌈(inv_cdf ((1 + c) / 2) * besselStdev data / d) ^ 2⌉) := by
  simp only [get_required_sample_size, get_z_value_ok hc0 hc1, stdev_ok h2]
  rw [if_neg hd]

/-- C1: for at least two data points, positive allowed deviation and a
confidence level in (0,1), `get_required_sample_size` returns
`max(2, ceil((z * s / allowed_deviation)^2))` where `z` is the standard
normal quantile at `(1 + confidence_level)/2` and `s` is the
Bessel-corrected sample standard deviation of the data. -/
theorem required_sample_size_formula (data : List ℝ) (allowed_deviation confidence_level : ℝ)
    (h2 : 2 ≤ data.length) (hd : 0 < allowed_deviation)
    (hc0 : 0 < confidence_level) (hc1 : confidence_level < 1) :
    get_required_sample_size data allowed_deviation confidence_level =
      .ok (max 2 ⌈(inv_cdf ((1 + confidence_level) / 2) * besselStdev data
        / allowed_deviation) ^ 2⌉) :=
  grss_ok h2 (by linarith) hc1 hd.ne'

/-- Witness for C1 at the concrete input `data = [0, 2]`,
`allowed_deviation = 1`, `confidence_level = 1/2`. -/
theorem required_sample_size_formula_witness :
    get_required_sample_size [0, 2] 1 (1 / 2) =
      .ok (max 2 ⌈(inv_cdf ((1 + 1 / 2) / 2) * besselStdev [0, 2] / 1) ^ 2⌉) :=
  required_sample_size_formula [0, 2] 1 (1 / 2) (by simp) (by norm_num) (by norm_num)
    (by norm_num)

/-- C4 (amended): `get_z_value` fails with `StatisticsError` exactly
when `confidence_level ≤ -1` or `confidence_level ≥ 1`; for every
`confidence_level` in `(-1, 1)` — in particular for every value in the
documented domain `(0, 1)` — it returns the standard normal quantile at
`(1 + confidence_level)/2`. -/
theorem get_z_value_domain (c : ℝ) :
    (get_z_value c = .error .statisticsError ↔ c ≤ -1 ∨ 1 ≤ c)
  ∧ (-1 < c → c < 1 →
      get_z_value c = .ok (inv_cdf ((1 + c) / 2))
        ∧ normal_cdf (inv_cdf ((1 + c) / 2)) = (1 + c) / 2) := by
  refine ⟨⟨?_, ?_⟩, ?_⟩
  · intro h
    by_contra hc
    push_neg at hc
    rw [get_z_value_ok hc.1 hc.2] at h
    exact absurd h (by simp)
  · intro h
    rw [get_z_value, if_pos]
    rcases h with h | h
    · exact Or.inl (by linarith)
    · exact Or.inr (by linarith)
  · intro h0 h1
    exact ⟨get_z_value_ok h0 h1, normal_cdf_inv_cdf (by linarith) (by linarith)⟩

/-- Counterexample to C4 as stated: `confidence_level = 0` is outside
the open interval (0, 1), yet `get_z_value 0` raises nothing and
returns 0 (the quantile at 1/2). -/
theorem get_z_value_at_zero : get_z_value 0 = .ok 0 := by
  rw [get_z_value_ok (by norm_num) (by norm_num)]
  have h : (1 + (0:ℝ)) / 2 = 1 / 2 := by norm_num
  rw [h, inv_cdf_one_half]

/-- Witness for C4 at `confidence_level = 1/2`. -/
theorem get_z_value_domain_witness :
    get_z_value (1 / 2) = .ok (inv_cdf ((1 + 1 / 2) / 2))
      ∧ normal_cdf (inv_cdf ((1 + 1 / 2) / 2)) = (1 + 1 / 2) / 2 :=
  (get_z_value_domain (1 / 2)).2 (by norm_num) (by norm_num)

/-- C5 (amended): with valid data and confidence level,
`get_required_sample_size` fails with `ZeroDivisionError` exactly at
`allowed_deviation = 0`; every nonzero `allowed_deviation` — negative
values included — succeeds, and a negative deviation returns the same
value as its absolute value because the quotient is squared. -/
theorem required_sample_size_zero_deviation (data : List ℝ) (d c : ℝ)
    (h2 : 2 ≤ data.length) (hc0 : 0 < c) (hc1 : c < 1) :
    get_required_sample_size data 0 c = .error .zeroDivisionError
  ∧ (d ≠ 0 → ∃ r, get_required_sample_size data d c = .ok r)
  ∧ get_required_sample_size data (-d) c = get_required_sample_size data d c := by
  have hz := get_z_value_ok (show -1 < c by linarith) hc1
  have hs := stdev_ok h2
  refine ⟨?_, ?_, ?_⟩
  · simp [get_required_sample_size, hz, hs]
  · intro hd
    exact ⟨_, grss_ok h2 (by linarith) hc1 hd⟩
  · by_cases hd : d = 0
    · rw [hd, neg_zero]
    · have harg : (inv_cdf ((1 + c) / 2) * besselStdev data / -d) ^ 2 =
          (inv_cdf ((1 + c) / 2) * besselStdev data / d) ^ 2 := by
        rw [div_neg, neg_sq]
      rw [grss_ok h2 (by linarith) hc1 (neg_ne_zero.mpr hd),
        grss_ok h2 (by linarith) hc1 hd, harg]

/-- Counterexample to C5 as stated: `allowed_deviation = -1 ≤ 0`, yet
`get_required_sample_size` succeeds (Python only raises
`ZeroDivisionError` for a zero divisor; a negative divisor is accepted
and the quotient is squared). -/
theorem required_sample_size_neg_deviation_ok :
    ∃ r, get_required_sample_size [0, 1] (-1) (1 / 2) = Except.ok r :=
  ⟨_, grss_ok (by simp) (by norm_num) (by norm_num) (by norm_num)⟩

/-- Witness for C5 (amended) at `data = [0, 1]`, `confidence_level = 1/2`. -/
theorem required_sample_size_zero_deviation_witness :
    get_required_sample_size [0, 1] 0 (1 / 2) = .error .zeroDivisionError :=
  (required_sample_size_zero_deviation [0, 1] 1 (1 / 2) (by simp) (by norm_num)
    (by norm_num)).1

/-- C6: on fewer than two data points `get_required_sample_size` raises
`StatisticsError` (the sample standard deviation is undefined), for
every allowed deviation — zero included, since `statistics.stdev` is
evaluated before the division — and every confidence level in (0,1). -/
theorem required_sample_size_short_data (data : List ℝ) (d c : ℝ)
    (hlen : data.length < 2) (hc0 : 0 < c) (hc1 : c < 1) :
    get_required_sample_size data d c = .error .statisticsError := by
  have hz := get_z_value_ok (show -1 < c by linarith) hc1
  simp only [get_required_sample_size, hz, stdev_short hlen]

/-- Witness for C6 at `data = []`, `allowed_deviation = 0`,
`confidence_level = 1/2`. -/
theorem required_sample_size_short_data_witness :
    get_required_sample_size [] 0 (1 / 2) = .error .statisticsError :=
  required_sample_size_short_data [] 0 (1 / 2) (by simp) (by norm_num) (by norm_num)

/-- C7: on valid inputs the required sample size is at least 2, is
monotonically non-decreasing in the confidence level and in the sample
standard deviation of the data, and monotonically non-increasing in the
allowed deviation. -/
theorem required_sample_size_monotonicity :
    (∀ (data : List ℝ) (d c : ℝ) (r : ℤ), 2 ≤ data.length → 0 < d → 0 < c → c < 1 →
      get_required_sample_size data d c = .ok r → 2 ≤ r)
  ∧ (∀ (data : List ℝ) (d c₁ c₂ : ℝ) (r₁ r₂ : ℤ), 2 ≤ data.length → 0 < d →
      0 < c₁ → c₁ ≤ c₂ → c₂ < 1 →
      get_required_sample_size data d c₁ = .ok r₁ →
      get_required_sample_size data d c₂ = .ok r₂ → r₁ ≤ r₂)
  ∧ (∀ (data₁ data₂ : List ℝ) (d c : ℝ) (r₁ r₂ : ℤ),
      2 ≤ data₁.length → 2 ≤ data₂.length → 0 < d → 0 < c → c < 1 →
      besselStdev data₁ ≤ besselStdev data₂ →
      get_required_sample_size data₁ d c = .ok r₁ →
      get_required_sample_size data₂ d c = .ok r₂ → r₁ ≤ r₂)
  ∧ (∀ (data : List ℝ) (d₁ d₂ c : ℝ) (r₁ r₂ : ℤ), 2 ≤ data.length →
      0 < d₁ → d₁ ≤ d₂ → 0 < c → c < 1 →
      get_required_sample_size data d₁ c = .ok r₁ →
      get_required_sample_size data d₂ c = .ok r₂ → r₂ ≤ r₁) := by
  refine ⟨?_, ?_, ?_, ?_⟩
  · intro data d c r h2 hd hc0 hc1 h
    rw [grss_ok h2 (by linarith) hc1 hd.ne'] at h
    simp only [Except.ok.injEq] at h
    rw [← h]
    exact le_max_left _ _
  · intro data d c₁ c₂ r₁ r₂ h2 hd hc0 hc12 hc21 h1 h2eq
    rw [grss_ok h2 (by linarith) (by linarith) hd.ne'] at h1
    rw [grss_ok h2 (by linarith) hc21 hd.ne'] at h2eq
    simp only [Except.ok.injEq] at h1 h2eq
    rw [← h1, ← h2eq]
    have hs := besselStdev_nonneg data
    have hz1 : 0 ≤ inv_cdf ((1 + c₁) / 2) :=
      inv_cdf_nonneg (by linarith) (by linarith)
    have hz12 : inv_cdf ((1 + c₁) / 2) ≤ inv_cdf ((1 + c₂) / 2) :=
      inv_cdf_le_inv_cdf (by linarith) (by linarith) (by linarith)
    have hbase : inv_cdf ((1 + c₁) / 2) * besselStdev data / d ≤
        inv_cdf ((1 + c₂) / 2) * besselStdev data / d := by gcongr
    have hb0 : 0 ≤ inv_cdf ((1 + c₁) / 2) * besselStdev data / d := by positivity
    exact max_le_max le_rfl (Int.ceil_le_ceil (pow_le_pow_left hb0 hbase 2))
  · intro data₁ data₂ d c r₁ r₂ h21 h22 hd hc0 hc1 hsle h1 h2eq
    rw [grss_ok h21 (by linarith) hc1 hd.ne'] at h1
    rw [grss_ok h22 (by linarith) hc1 hd.ne'] at h2eq
    simp only [Except.ok.injEq] at h1 h2eq
    rw [← h1, ← h2eq]
    have hs1 := besselStdev_nonneg data₁
    have hz : 0 ≤ inv_cdf ((1 + c) / 2) := inv_cdf_nonneg (by linarith) (by linarith)
    have hbase : inv_cdf ((1 + c) / 2) * besselStdev data₁ / d ≤
        inv_cdf ((1 + c) / 2) * besselStdev data₂ / d := by gcongr
    have hb0 : 0 ≤ inv_cdf ((1 + c) / 2) * besselStdev data₁ / d := by positivity
    exact max_le_max le_rfl (Int.ceil_le_ceil (pow_le_pow_left hb0 hbase 2))
  · intro data d₁ d₂ c r₁ r₂ h2 hd1 hd12 hc0 hc1 h1 h2eq
    have hd2 : 0 < d₂ := lt_of_lt_of_le hd1 hd12
    rw [grss_ok h2 (by linarith) hc1 hd1.ne'] at h1
    rw [grss_ok h2 (by linarith) hc1 hd2.ne'] at h2eq
    simp only [Except.ok.injEq] at h1 h2eq
    rw [← h1, ← h2eq]
    have hs := besselStdev_nonneg data
    have hz : 0 ≤ inv_cdf ((1 + c) / 2) := inv_cdf_nonneg (by linarith) (by linarith)
    have hbase : inv_cdf ((1 + c) / 2) * besselStdev data / d₂ ≤
        inv_cdf ((1 + c) / 2) * besselStdev data / d₁ := by gcongr
    have hb0 : 0 ≤ inv_cdf ((1 + c) / 2) * besselStdev data / d₂ := by positivity
    exact max_le_max le_rfl (Int.ceil_le_ceil (pow_le_pow_left hb0 hbase 2))

/-! ## `describe_timings` -/

lemma foldl_min_mem (x : ℝ) (xs : List ℝ) : xs.foldl min x ∈ x :: xs := by
  induction xs generalizing x with
  | nil => simp
  | cons y ys ih =>
    simp only [List.foldl_cons]
    rcases List.mem_cons.mp (ih (min x y)) with h | h
    · rw [h]
      rcases min_choice x y with hm | hm
      · rw [hm]
        exact List.mem_cons_self _ _
      · rw [hm]
        exact List.mem_cons_of_mem _ (List.mem_cons_self _ _)
    · exact List.mem_cons_of_mem _ (List.mem_cons_of_mem _ h)

lemma foldl_min_le (x : ℝ) (xs : List ℝ) : ∀ y ∈ x :: xs, xs.foldl min x ≤ y := by
  induction xs generalizing x with
  | nil =>
    intro y hy
    simp only [List.mem_singleton] at hy
    simp [hy]
  | cons z zs ih =>
    intro y hy
    simp only [List.foldl_cons]
    rcases List.mem_cons.mp hy with h1 | hy2
    · rw [h1]
      exact le_trans (ih (min x z) _ (List.mem_cons_self _ _)) (min_le_left _ _)
    · rcases List.mem_cons.mp hy2 with h1 | hy3
      · rw [h1]
        exact le_trans (ih (min x z) _ (List.mem_cons_self _ _)) (min_le_right _ _)
      · exact ih (min x z) _ (List.mem_cons_of_mem _ hy3)

lemma foldl_max_mem (x : ℝ) (xs : List ℝ) : xs.foldl max x ∈ x :: xs := by
  induction xs generalizing x with
  | nil => simp
  | cons y ys ih =>
    simp only [List.foldl_cons]
    rcases List.mem_cons.mp (ih (max x y)) with h | h
    · rw [h]
      rcases max_choice x y with hm | hm
      · rw [hm]
        exact List.mem_cons_self _ _
      · rw [hm]
        exact List.mem_cons_of_mem _ (List.mem_cons_self _ _)
    · exact List.mem_cons_of_mem _ (List.mem_cons_of_mem _ h)

lemma le_foldl_max (x : ℝ) (xs : List ℝ) : ∀ y ∈ x :: xs, y ≤ xs.foldl max x := by
  induction xs generalizing x with
  | nil =>
    intro y hy
    simp only [List.mem_singleton] at hy
    simp [hy]
  | cons z zs ih =>
    intro y hy
    simp only [List.foldl_cons]
    rcases List.mem_cons.mp hy with h1 | hy2
    · rw [h1]
      exact le_trans (le_max_left _ _) (ih (max x z) _ (List.mem_cons_self _ _))
    · rcases List.mem_cons.mp hy2 with h1 | hy3
      · rw [h1]
        exact le_trans (le_max_right _ _) (ih (max x z) _ (List.mem_cons_self _ _))
      · exact ih (max x z) _ (List.mem_cons_of_mem _ hy3)

/-- C9: `describe_timings [1.0, 2.0, 3.0]` returns the mapping
`{count: 3, min: 1, max: 3, mean: 2, stdev: 1, total: 6}`, and in
general on at least two points it returns exactly the keys `count`,
`min`, `max`, `mean`, `stdev` (Bessel-corrected) and `total` with their
standard meanings: the length, a least element, a greatest element, the
value whose product with the count is the sum, the nonnegative value
whose square times n−1 is the sum of squared deviations from the mean,
and the sum. -/
theorem describe_timings_spec :
    describe_timings [1, 2, 3] = .ok ⟨3, 1, 3, 2, 1, 6⟩
  ∧ (∀ l : List ℝ, 2 ≤ l.length → ∃ s, describe_timings l = .ok s ∧
      s.count = l.length ∧
      (s.min ∈ l ∧ ∀ x ∈ l, s.min ≤ x) ∧
      (s.max ∈ l ∧ ∀ x ∈ l, x ≤ s.max) ∧
      s.mean * l.length = l.sum ∧
      0 ≤ s.stdev ∧
      s.stdev ^ 2 * (l.length - 1) = (l.map (fun x => (x - s.mean) ^ 2)).sum ∧
      s.total = l.sum) := by
  constructor
  · have hb : besselStdev [1, 2, 3] = 1 := by
      simp only [besselStdev]
      rw [Real.sqrt_eq_one]
      norm_num
    have hsd : stdev [1, 2, 3] = .ok 1 := by
      rw [stdev_ok (by simp), hb]
    simp only [describe_timings, hsd, Except.ok.injEq, TimingStats.mk.injEq]
    norm_num [List.foldl_cons, List.foldl_nil, min_def, max_def]
  · intro l hl
    obtain ⟨x, xs, rfl⟩ : ∃ x xs, l = x :: xs := by
      cases l with
      | nil => simp at hl
      | cons x xs => exact ⟨x, xs, rfl⟩
    have hn1 : ((x :: xs).length : ℝ) ≠ 0 := Nat.cast_ne_zero.mpr (by simp)
    have hn2 : (2 : ℝ) ≤ ((x :: xs).length : ℝ) := by
      exact_mod_cast hl
    have hsum_nonneg :
        0 ≤ ((x :: xs).map (fun y => (y - (x :: xs).sum / (x :: xs).length) ^ 2)).sum := by
      apply List.sum_nonneg
      intro a ha
      obtain ⟨b, _, rfl⟩ := List.mem_map.mp ha
      positivity
    refine ⟨⟨(x :: xs).length, xs.foldl min x, xs.foldl max x,
        (x :: xs).sum / (x :: xs).length, besselStdev (x :: xs), (x :: xs).sum⟩,
      ?_, rfl, ⟨foldl_min_mem x xs, foldl_min_le x xs⟩,
      ⟨foldl_max_mem x xs, le_foldl_max x xs⟩, ?_, besselStdev_nonneg _, ?_, rfl⟩
    · simp only [describe_timings, stdev_ok hl]
    · exact div_mul_cancel₀ _ hn1
    · have hden : (0:ℝ) < ((x :: xs).length : ℝ) - 1 := by linarith
      have hv : 0 ≤ ((x :: xs).map
            (fun y => (y - (x :: xs).sum / (x :: xs).length) ^ 2)).sum
          / (((x :: xs).length : ℝ) - 1) := div_nonneg hsum_nonneg hden.le
      simp only [besselStdev]
      rw [Real.sq_sqrt hv]
      exact div_mul_cancel₀ _ hden.ne'

/-- Witness for C9's general clause: the summary fields of a two-point
sample have the stated properties. -/
theorem describe_timings_spec_witness :
    ∃ s, describe_timings [5, 7] = .ok s ∧
      s.count = ([5, 7] : List ℝ).length ∧
      (s.min ∈ ([5, 7] : List ℝ) ∧ ∀ x ∈ ([5, 7] : List ℝ), s.min ≤ x) ∧
      (s.max ∈ ([5, 7] : List ℝ) ∧ ∀ x ∈ ([5, 7] : List ℝ), x ≤ s.max) ∧
      s.mean * ([5, 7] : List ℝ).length = ([5, 7] : List ℝ).sum ∧
      0 ≤ s.stdev ∧
      s.stdev ^ 2 * (([5, 7] : List ℝ).length - 1) =
        (([5, 7] : List ℝ).map (fun x => (x - s.mean) ^ 2)).sum ∧
      s.total = ([5, 7] : List ℝ).sum :=
  describe_timings_spec.2 [5, 7] (by simp)

/-- C10: on fewer than two timings `describe_timings` raises an error
rather than returning a mapping: `ValueError` (from `min`) on an empty
sequence, `StatisticsError` (from `statistics.stdev`) on a single
point. -/
theorem describe_timings_short (timings : List ℝ) (h : timings.length < 2) :
    ∃ e, describe_timings timings = .error e := by
  match timings with
  | [] => exact ⟨.valueError, rfl⟩
  | [x] =>
    refine ⟨.statisticsError, ?_⟩
    have hsd : stdev [x] = .error .statisticsError := stdev_short (by simp)
    simp only [describe_timings, hsd]
  | x :: y :: tl =>
    simp only [List.length_cons] at h
    omega

/-- Witness for C10 on the empty timing sequence. -/
theorem describe_timings_short_witness :
    ∃ e, describe_timings [] = .error e :=
  describe_timings_short [] (by simp)

/-! ## Behaviour of the adaptive benchmark loop -/

/-- Sum of the durations of runs `k, k+1, ..., k+m-1`. -/
noncomputable def sumFrom (dur : ℕ → ℝ) (k m : ℕ) : ℝ :=
  ((List.range m).map (fun i => dur (k + i))).sum

lemma sumFrom_zero (dur : ℕ → ℝ) (k : ℕ) : sumFrom dur k 0 = 0 := by
  simp [sumFrom]

lemma rangeMap_succ (dur : ℕ → ℝ) (k n : ℕ) :
    (List.range (n + 1)).map (fun i => dur (k + i)) =
      dur k :: (List.range n).map (fun i => dur (k + 1 + i)) := by
  simp only [List.range_succ_eq_map, List.map_cons, List.map_map, Nat.add_zero]
  have h2 : ((fun i => dur (k + i)) ∘ Nat.succ) = fun i => dur (k + 1 + i) := by
    funext i
    simp only [Function.comp_apply]
    congr 1
    omega
  rw [h2]

lemma sumFrom_succ_left (dur : ℕ → ℝ) (k m : ℕ) :
    sumFrom dur k (m + 1) = dur k + sumFrom dur (k + 1) m := by
  rw [sumFrom, rangeMap_succ, List.sum_cons, sumFrom]

lemma sumFrom_one (dur : ℕ → ℝ) (k : ℕ) : sumFrom dur k 1 = dur k := by
  rw [sumFrom_succ_left, sumFrom_zero, add_zero]

lemma sumFrom_succ_right (dur : ℕ → ℝ) (k m : ℕ) :
    sumFrom dur k (m + 1) = sumFrom dur k m + dur (k + m) := by
  simp [sumFrom, List.range_succ]

lemma sumFrom_add (dur : ℕ → ℝ) (k m n : ℕ) :
    sumFrom dur k (m + n) = sumFrom dur k m + sumFrom dur (k + m) n := by
  induction n with
  | zero => simp [sumFrom_zero]
  | succ n ih =>
    have h1 : m + (n + 1) = (m + n) + 1 := rfl
    rw [h1, sumFrom_succ_right, ih, sumFrom_succ_right, Nat.add_assoc]
    ring

lemma run_ok {dur : ℕ → ℝ} {M : ℝ} {k : ℕ} {t t' : List ℝ}
    (h : run dur M k t = .ok t') :
    t' = t ++ [dur k] ∧ (t ++ [dur k]).sum ≤ M := by
  simp only [run] at h
  by_cases hc : (t ++ [dur k]).sum > M
  · rw [if_pos hc] at h
    simp at h
  · rw [if_neg hc] at h
    simp only [Except.ok.injEq] at h
    exact ⟨h.symm, not_lt.mp hc⟩

lemma run_error {dur : ℕ → ℝ} {M : ℝ} {k : ℕ} {t : List ℝ} {e : PyError}
    (h : run dur M k t = .error e) :
    e = .valueError ∧ (t ++ [dur k]).sum > M := by
  simp only [run] at h
  by_cases hc : (t ++ [dur k]).sum > M
  · rw [if_pos hc] at h
    simp only [Except.error.injEq] at h
    exact ⟨h.symm, hc⟩
  · rw [if_neg hc] at h
    simp at h

lemma get_z_value_error_eq {c : ℝ} {e : PyError}
    (h : get_z_value c = .error e) : e = .statisticsError := by
  simp only [get_z_value] at h
  by_cases hc : (1 + c) / 2 ≤ 0 ∨ 1 ≤ (1 + c) / 2
  · rw [if_pos hc] at h
    simp only [Except.error.injEq] at h
    exact h.symm
  · rw [if_neg hc] at h
    simp at h

lemma stdev_error_eq {data : List ℝ} {e : PyError}
    (h : stdev data = .error e) : e = .statisticsError := by
  simp only [stdev] at h
  by_cases hc : data.length < 2
  · rw [if_pos hc] at h
    simp only [Except.error.injEq] at h
    exact h.symm
  · rw [if_neg hc] at h
    simp at h

lemma grss_ne_valueError (data : List ℝ) (d c : ℝ) :
    get_required_sample_size data d c ≠ .error .valueError := by
  intro h
  simp only [get_required_sample_size] at h
  cases hz : get_z_value c with
  | error e =>
    simp only [hz, Except.error.injEq] at h
    rw [h] at hz
    exact absurd (get_z_value_error_eq hz) (by simp)
  | ok z =>
    simp only [hz] at h
    cases hs : stdev data with
    | error e =>
      simp only [hs, Except.error.injEq] at h
      rw [h] at hs
      exact absurd (stdev_error_eq hs) (by simp)
    | ok s =>
      simp only [hs] at h
      by_cases hd : d = 0
      · rw [if_pos hd] at h
        simp at h
      · rw [if_neg hd] at h
        simp at h

lemma runSeq_ok_eq (dur : ℕ → ℝ) (M : ℝ) :
    ∀ (n k : ℕ) (t t' : List ℝ), runSeq dur M n k t = .ok t' →
      t' = t ++ (List.range n).map (fun i => dur (k + i)) := by
  intro n
  induction n with
  | zero =>
    intro k t t' h
    simp only [runSeq, Except.ok.injEq] at h
    simp [← h]
  | succ n ih =>
    intro k t t' h
    simp only [runSeq] at h
    cases hrun : run dur M k t with
    | error e =>
      simp [hrun] at h
    | ok t2 =>
      simp only [hrun] at h
      obtain ⟨ht2, _⟩ := run_ok hrun
      have := ih (k + 1) t2 t' h
      rw [this, ht2, List.append_assoc, List.singleton_append, ← rangeMap_succ]

lemma runSeq_error_iff (dur : ℕ → ℝ) (M : ℝ) :
    ∀ (n k : ℕ) (t : List ℝ), runSeq dur M n k t = .error .valueError ↔
      ∃ j < n, t.sum + sumFrom dur k (j + 1) > M := by
  intro n
  induction n with
  | zero =>
    intro k t
    simp [runSeq]
  | succ n ih =>
    intro k t
    simp only [runSeq]
    cases hrun : run dur M k t with
    | error e =>
      obtain ⟨he, hsum⟩ := run_error hrun
      subst he
      rw [List.sum_append, List.sum_cons, List.sum_nil, add_zero] at hsum
      constructor
      · intro _
        refine ⟨0, by omega, ?_⟩
        rw [sumFrom_one]
        exact hsum
      · intro _
        rfl
    | ok t2 =>
      obtain ⟨ht2, hle⟩ := run_ok hrun
      rw [ih (k + 1) t2, ht2]
      rw [List.sum_append, List.sum_cons, List.sum_nil, add_zero] at hle
      simp only [List.sum_append, List.sum_cons, List.sum_nil, add_zero]
      constructor
      · rintro ⟨j, hj, hsum⟩
        refine ⟨j + 1, by omega, ?_⟩
        rw [sumFrom_succ_left]
        linarith
      · rintro ⟨j, hj, hsum⟩
        cases j with
        | zero =>
          rw [sumFrom_one] at hsum
          linarith
        | succ j =>
          refine ⟨j, by omega, ?_⟩
          rw [sumFrom_succ_left] at hsum
          linarith

lemma benchLoop_ok_eq (dur : ℕ → ℝ) (cfg : Config) :
    ∀ (fuel k : ℕ) (t l : List ℝ), benchLoop dur cfg fuel k t = some (.ok l) →
      ∃ m, l = t ++ (List.range m).map (fun i => dur (k + i)) := by
  intro fuel
  induction fuel with
  | zero =>
    intro k t l h
    simp [benchLoop] at h
  | succ fuel ih =>
    intro k t l h
    simp only [benchLoop] at h
    cases hr : get_required_sample_size t cfg.allowed_deviation cfg.confidence_level with
    | error e =>
      simp [hr] at h
    | ok r =>
      simp only [hr] at h
      by_cases hlen : (t.length : ℤ) < r
      · rw [if_pos hlen] at h
        cases hrun : run dur cfg.max_time k t with
        | error e =>
          simp [hrun] at h
        | ok t2 =>
          simp only [hrun] at h
          obtain ⟨ht2, _⟩ := run_ok hrun
          obtain ⟨m, hm⟩ := ih (k + 1) t2 l h
          refine ⟨m + 1, ?_⟩
          rw [hm, ht2, List.append_assoc, List.singleton_append, ← rangeMap_succ]
      · rw [if_neg hlen] at h
        simp only [Option.some.injEq, Except.ok.injEq] at h
        exact ⟨0, by simp [← h]⟩

lemma benchLoop_exit {dur : ℕ → ℝ} {cfg : Config} {fuel k : ℕ} {t : List ℝ} {r : ℤ}
    (hr : get_required_sample_size t cfg.allowed_deviation cfg.confidence_level = .ok r)
    (hlen : r ≤ (t.length : ℤ)) :
    benchLoop dur cfg (fuel + 1) k t = some (.ok t) := by
  simp only [benchLoop, hr]
  rw [if_neg (not_lt.mpr hlen)]

lemma benchLoop_error_sum (dur : ℕ → ℝ) (cfg : Config) :
    ∀ (fuel k : ℕ) (t : List ℝ),
      benchLoop dur cfg fuel k t = some (.error .valueError) →
      ∃ m, 1 ≤ m ∧ t.sum + sumFrom dur k m > cfg.max_time := by
  intro fuel
  induction fuel with
  | zero =>
    intro k t h
    simp [benchLoop] at h
  | succ fuel ih =>
    intro k t h
    simp only [benchLoop] at h
    cases hr : get_required_sample_size t cfg.allowed_deviation cfg.confidence_level with
    | error e =>
      simp only [hr, Option.some.injEq, Except.error.injEq] at h
      rw [h] at hr
      exact absurd hr (grss_ne_valueError _ _ _)
    | ok r =>
      simp only [hr] at h
      by_cases hlen : (t.length : ℤ) < r
      · rw [if_pos hlen] at h
        cases hrun : run dur cfg.max_time k t with
        | error e =>
          simp only [hrun, Option.some.injEq, Except.error.injEq] at h
          rw [h] at hrun
          obtain ⟨_, hsum⟩ := run_error hrun
          refine ⟨1, le_refl 1, ?_⟩
          rw [sumFrom_one]
          rw [List.sum_append, List.sum_cons, List.sum_nil, add_zero] at hsum
          exact hsum
        | ok t2 =>
          simp only [hrun] at h
          obtain ⟨ht2, _⟩ := run_ok hrun
          obtain ⟨m, hm1, hm2⟩ := ih (k + 1) t2 h
          refine ⟨m + 1, by omega, ?_⟩
          rw [ht2, List.sum_append, List.sum_cons, List.sum_nil, add_zero] at hm2
          rw [sumFrom_succ_left]
          linarith
      · rw [if_neg hlen] at h
        simp at h

lemma runSeq_from_nil {dur : ℕ → ℝ} {M : ℝ} {n : ℕ} {t0 : List ℝ}
    (h : runSeq dur M n 0 [] = .ok t0) : t0 = (List.range n).map dur := by
  have := runSeq_ok_eq dur M n 0 [] t0 h
  simpa using this

lemma dropWarmup_init_length {cfg : Config} {t0 : List ℝ}
    (h : t0.length = initCount cfg) : (dropWarmup cfg t0).length = cfg.min_runs := by
  rw [dropWarmup]
  by_cases hw : cfg.warmup = true
  · rw [if_pos hw, List.length_drop, h, initCount, if_pos hw]
    omega
  · rw [if_neg hw, h, initCount, if_neg hw]
    omega

/-- C2: `benchmark` is the initial fixed phase of
`min_runs + (1 if warmup else 0)` runs, then the permanent warmup trim,
then the adaptive loop re-evaluating `get_required_sample_size` on the
current post-warmup sample each iteration; when `min_runs` already
meets or exceeds the required size the result is exactly the initial
runs minus the warmup run, and every returned list is the trimmed
initial phase extended by later runs, hence has length at least
`min_runs`. -/
theorem benchmark_adaptive_loop (dur : ℕ → ℝ) (cfg : Config) (fuel : ℕ) :
    (benchmark dur cfg fuel =
      match runSeq dur cfg.max_time (initCount cfg) 0 [] with
      | .error e => some (.error e)
      | .ok t0 => benchLoop dur cfg fuel (initCount cfg) (dropWarmup cfg t0))
  ∧ (∀ t0 r, runSeq dur cfg.max_time (initCount cfg) 0 [] = .ok t0 →
      get_required_sample_size (dropWarmup cfg t0) cfg.allowed_deviation
        cfg.confidence_level = .ok r →
      r ≤ (cfg.min_runs : ℤ) → 1 ≤ fuel →
      benchmark dur cfg fuel = some (.ok (dropWarmup cfg t0)))
  ∧ (∀ l, benchmark dur cfg fuel = some (.ok l) →
      cfg.min_runs ≤ l.length ∧
      ∃ m, l = dropWarmup cfg ((List.range (initCount cfg)).map dur) ++
        (List.range m).map (fun i => dur (initCount cfg + i))) := by
  refine ⟨rfl, ?_, ?_⟩
  · intro t0 r hrs hgrss hr hfuel
    obtain ⟨fuel2, rfl⟩ : ∃ f, fuel = f + 1 := ⟨fuel - 1, by omega⟩
    have hlen : (dropWarmup cfg t0).length = cfg.min_runs := by
      apply dropWarmup_init_length
      rw [runSeq_from_nil hrs]
      simp
    simp only [benchmark, hrs]
    apply benchLoop_exit hgrss
    rw [hlen]
    exact hr
  · intro l h
    simp only [benchmark] at h
    cases hrs : runSeq dur cfg.max_time (initCount cfg) 0 [] with
    | error e =>
      simp [hrs] at h
    | ok t0 =>
      simp only [hrs] at h
      have ht0 := runSeq_from_nil hrs
      obtain ⟨m, hm⟩ := benchLoop_ok_eq dur cfg fuel (initCount cfg) (dropWarmup cfg t0) l h
      have hlen : (dropWarmup cfg t0).length = cfg.min_runs :=
        dropWarmup_init_length (by rw [ht0]; simp)
      constructor
      · rw [hm, List.length_append, hlen]
        omega
      · exact ⟨m, by rw [hm, ht0]⟩

/-- C3 (amended): a budget-exceeded `ValueError` is raised exactly when
a post-run check finds the sum of the currently recorded timings above
`max_time`.  During the initial fixed phase the recorded timings
include the warmup run, and the error is raised there precisely when
some prefix of the durations (warmup included) sums above `max_time`;
but after the warmup trim the rebound `timings` list no longer contains
the warmup timing, so every later check sums only the post-warmup
durations: any budget error of the whole call stems either from an
initial-phase prefix including the warmup run or from a post-trim sum
that excludes it. -/
theorem benchmark_budget_accounting (dur : ℕ → ℝ) (cfg : Config) :
    (∀ (n k : ℕ) (t : List ℝ),
        runSeq dur cfg.max_time n k t = .error .valueError ↔
          ∃ j < n, t.sum + sumFrom dur k (j + 1) > cfg.max_time)
  ∧ (∀ (fuel k : ℕ) (t : List ℝ),
        benchLoop dur cfg fuel k t = some (.error .valueError) →
          ∃ m, 1 ≤ m ∧ t.sum + sumFrom dur k m > cfg.max_time)
  ∧ (∀ fuel : ℕ, benchmark dur cfg fuel = some (.error .valueError) →
        (∃ j < initCount cfg, sumFrom dur 0 (j + 1) > cfg.max_time)
      ∨ ∃ m, 1 ≤ m ∧
          sumFrom dur (if cfg.warmup then 1 else 0) (cfg.min_runs + m) > cfg.max_time) := by
  refine ⟨runSeq_error_iff dur cfg.max_time, benchLoop_error_sum dur cfg, ?_⟩
  intro fuel h
  simp only [benchmark] at h
  cases hrs : runSeq dur cfg.max_time (initCount cfg) 0 [] with
  | error e =>
    simp only [hrs, Option.some.injEq, Except.error.injEq] at h
    rw [h] at hrs
    left
    have := (runSeq_error_iff dur cfg.max_time (initCount cfg) 0 []).mp hrs
    simpa using this
  | ok t0 =>
    simp only [hrs] at h
    right
    have ht0 := runSeq_from_nil hrs
    obtain ⟨m, hm1, hm2⟩ :=
      benchLoop_error_sum dur cfg fuel (initCount cfg) (dropWarmup cfg t0) h
    refine ⟨m, hm1, ?_⟩
    by_cases hw : cfg.warmup = true
    · have hinit : initCount cfg = cfg.min_runs + 1 := by rw [initCount, if_pos hw]
      have hcons : (List.range (cfg.min_runs + 1)).map dur =
          dur 0 :: (List.range cfg.min_runs).map (fun i => dur (1 + i)) := by
        have h0 := rangeMap_succ dur 0 cfg.min_runs
        simpa using h0
      have hdrop : dropWarmup cfg t0 =
          (List.range cfg.min_runs).map (fun i => dur (1 + i)) := by
        rw [dropWarmup, if_pos hw, ht0, hinit, hcons]
        rfl
      have hsum_eq : (dropWarmup cfg t0).sum = sumFrom dur 1 cfg.min_runs := by
        rw [hdrop, sumFrom]
      rw [if_pos hw, sumFrom_add]
      rw [hsum_eq, hinit] at hm2
      have hc : 1 + cfg.min_runs = cfg.min_runs + 1 := Nat.add_comm 1 _
      rw [hc]
      linarith
    · have hinit : initCount cfg = cfg.min_runs := by
        rw [initCount, if_neg hw]
        omega
      have hdrop : dropWarmup cfg t0 = (List.range cfg.min_runs).map dur := by
        rw [dropWarmup, if_neg hw, ht0, hinit]
      have hsum_eq : (dropWarmup cfg t0).sum = sumFrom dur 0 cfg.min_runs := by
        rw [hdrop]
        simp [sumFrom]
      rw [if_neg hw, sumFrom_add]
      rw [hsum_eq, hinit] at hm2
      simp only [Nat.zero_add]
      linarith

/-- Durations of the counterexample run: the warmup run takes 3
seconds, then the three counted runs take 0, 4 and 2 seconds. -/
noncomputable def cDur : ℕ → ℝ := fun k =>
  if k = 0 then 3 else if k = 1 then 0 else if k = 2 then 4 else 2

/-- Configuration of the counterexample run: `allowed_deviation = 1`,
`confidence_level = 1/2`, warmup on, `min_runs = 2`, `max_time = 8`. -/
noncomputable def cCfg : Config :=
  { allowed_deviation := 1
    confidence_level := 1 / 2
    warmup := true
    min_runs := 2
    max_time := 8 }

lemma besselStdev_zero_four : besselStdev [0, 4] = Real.sqrt 8 := by
  simp only [besselStdev]
  norm_num

lemma besselStdev_zero_four_two : besselStdev [0, 4, 2] = 2 := by
  have h4 : Real.sqrt 4 = 2 := by
    rw [show (4:ℝ) = 2 ^ 2 by norm_num, Real.sqrt_sq (by norm_num : (0:ℝ) ≤ 2)]
  simp only [besselStdev]
  norm_num [h4]

/-- Counterexample to C3 as stated: with warmup enabled, `min_runs = 2`
and `max_time = 8`, durations 3 (warmup), 0, 4, 2, the cumulative total
including the discarded warmup run is 9 > 8 when the check after the
fourth run fires, yet `benchmark` raises nothing and returns the
timings — after the trim the budget check sums only the post-warmup
timings 0 + 4 + 2 = 6 ≤ 8. -/
theorem benchmark_budget_counterexample :
    benchmark cDur cCfg 10 = some (.ok [0, 4, 2])
      ∧ cDur 0 + ((0:ℝ) + 4 + 2) > cCfg.max_time := by
  have hz1 : (3:ℝ) / 5 < inv_cdf (3 / 4) := inv_cdf_three_quarters_gt
  have hz2 : inv_cdf (3 / 4) < 17 / 20 := inv_cdf_three_quarters_lt
  have hp : ((1:ℝ) + 1 / 2) / 2 = 3 / 4 := by norm_num
  have hr2 : get_required_sample_size [0, 4] 1 (1 / 2) =
      .ok (max 2 ⌈(inv_cdf (3 / 4) * Real.sqrt 8 / 1) ^ 2⌉) := by
    rw [grss_ok (by simp) (by norm_num) (by norm_num) (by norm_num), hp,
      besselStdev_zero_four]
  have hsq8 : (inv_cdf (3 / 4) * Real.sqrt 8 / 1) ^ 2 = inv_cdf (3 / 4) ^ 2 * 8 := by
    rw [div_one, mul_pow, Real.sq_sqrt (by norm_num : (0:ℝ) ≤ 8)]
  have h2ltr2 : (2:ℤ) < max 2 ⌈(inv_cdf (3 / 4) * Real.sqrt 8 / 1) ^ 2⌉ := by
    have hx : (2:ℝ) < (inv_cdf (3 / 4) * Real.sqrt 8 / 1) ^ 2 := by
      rw [hsq8]
      nlinarith
    have hceil : (2:ℤ) < ⌈(inv_cdf (3 / 4) * Real.sqrt 8 / 1) ^ 2⌉ := by
      rw [Int.lt_ceil]
      push_cast
      exact hx
    exact lt_of_lt_of_le hceil (le_max_right _ _)
  have hr3 : get_required_sample_size [0, 4, 2] 1 (1 / 2) =
      .ok (max 2 ⌈(inv_cdf (3 / 4) * 2 / 1) ^ 2⌉) := by
    rw [grss_ok (by simp) (by norm_num) (by norm_num) (by norm_num), hp,
      besselStdev_zero_four_two]
  have hr3le : max 2 ⌈(inv_cdf (3 / 4) * 2 / 1) ^ 2⌉ ≤ (3:ℤ) := by
    apply max_le (by norm_num)
    rw [Int.ceil_le]
    push_cast
    nlinarith
  have hrun0 : run cDur 8 0 [] = .ok [3] := by norm_num [run, cDur]
  have hrun1 : run cDur 8 1 [3] = .ok [3, 0] := by norm_num [run, cDur]
  have hrun2 : run cDur 8 2 [3, 0] = .ok [3, 0, 4] := by norm_num [run, cDur]
  have hrun3 : run cDur 8 3 [0, 4] = .ok [0, 4, 2] := by norm_num [run, cDur]
  have hrs : runSeq cDur 8 3 0 [] = .ok [3, 0, 4] := by
    simp only [runSeq, hrun0, hrun1, hrun2]
  constructor
  · have hmax : cCfg.max_time = (8:ℝ) := rfl
    have hic : initCount cCfg = 3 := rfl
    have ha : cCfg.allowed_deviation = (1:ℝ) := rfl
    have hcl : cCfg.confidence_level = (1:ℝ) / 2 := rfl
    have htrim : dropWarmup cCfg [3, 0, 4] = [0, 4] := rfl
    simp only [benchmark, hic, hmax, hrs, htrim]
    show benchLoop cDur cCfg (9 + 1) 3 [0, 4] = _
    simp only [benchLoop, ha, hcl, hr2]
    rw [if_pos (by simpa using h2ltr2)]
    simp only [hmax, hrun3]
    show benchLoop cDur cCfg (8 + 1) 4 [0, 4, 2] = _
    simp only [benchLoop, ha, hcl, hr3]
    rw [if_neg (by simpa using not_lt.mpr hr3le)]
  · norm_num [cDur, cCfg]

/-! ## The target operation is an opaque collaborator -/

lemma runSeqT_fst {α β : Type} (f : α → β) (a : α) (dur : ℕ → ℝ) (M : ℝ) :
    ∀ (n k : ℕ) (t : List ℝ) (tr : List α),
      (runSeqT f a dur M n k t tr).1 = runSeq dur M n k t := by
  intro n
  induction n with
  | zero => intro k t tr; rfl
  | succ n ih =>
    intro k t tr
    simp only [runSeqT, runT, runSeq]
    cases hrun : run dur M k t with
    | error e => rfl
    | ok t2 => exact ih (k + 1) t2 (tr ++ [a])

lemma runSeqT_trace {α β : Type} (f : α → β) (a : α) (dur : ℕ → ℝ) (M : ℝ) :
    ∀ (n k : ℕ) (t : List ℝ) (tr : List α) (x : α),
      x ∈ (runSeqT f a dur M n k t tr).2 → x ∈ tr ∨ x = a := by
  intro n
  induction n with
  | zero => intro k t tr x hx; exact Or.inl hx
  | succ n ih =>
    intro k t tr x hx
    simp only [runSeqT, runT] at hx
    cases hrun : run dur M k t with
    | error e =>
      simp only [hrun] at hx
      rcases List.mem_append.mp hx with h | h
      · exact Or.inl h
      · exact Or.inr (List.mem_singleton.mp h)
    | ok t2 =>
      simp only [hrun] at hx
      rcases ih (k + 1) t2 (tr ++ [a]) x hx with h | h
      · rcases List.mem_append.mp h with h2 | h2
        · exact Or.inl h2
        · exact Or.inr (List.mem_singleton.mp h2)
      · exact Or.inr h

lemma benchLoopT_fst {α β : Type} (f : α → β) (a : α) (dur : ℕ → ℝ) (cfg : Config) :
    ∀ (fuel k : ℕ) (t : List ℝ) (tr : List α),
      (benchLoopT f a dur cfg fuel k t tr).1 = benchLoop dur cfg fuel k t := by
  intro fuel
  induction fuel with
  | zero => intro k t tr; rfl
  | succ fuel ih =>
    intro k t tr
    simp only [benchLoopT, runT, benchLoop]
    cases hr : get_required_sample_size t cfg.allowed_deviation cfg.confidence_level with
    | error e => rfl
    | ok r =>
      dsimp only
      split_ifs with hlen
      · cases hrun : run dur cfg.max_time k t with
        | error e => rfl
        | ok t2 => exact ih (k + 1) t2 (tr ++ [a])
      · rfl

lemma benchLoopT_trace {α β : Type} (f : α → β) (a : α) (dur : ℕ → ℝ) (cfg : Config) :
    ∀ (fuel k : ℕ) (t : List ℝ) (tr : List α) (x : α),
      x ∈ (benchLoopT f a dur cfg fuel k t tr).2 → x ∈ tr ∨ x = a := by
  intro fuel
  induction fuel with
  | zero => intro k t tr x hx; exact Or.inl hx
  | succ fuel ih =>
    intro k t tr x hx
    simp only [benchLoopT, runT] at hx
    cases hr : get_required_sample_size t cfg.allowed_deviation cfg.confidence_level with
    | error e =>
      simp only [hr] at hx
      exact Or.inl hx
    | ok r =>
      simp only [hr] at hx
      split_ifs at hx with hlen
      · cases hrun : run dur cfg.max_time k t with
        | error e =>
          simp only [hrun] at hx
          rcases List.mem_append.mp hx with h | h
          · exact Or.inl h
          · exact Or.inr (List.mem_singleton.mp h)
        | ok t2 =>
          simp only [hrun] at hx
          rcases ih (k + 1) t2 (tr ++ [a]) x hx with h | h
          · rcases List.mem_append.mp h with h2 | h2
            · exact Or.inl h2
            · exact Or.inr (List.mem_singleton.mp h2)
          · exact Or.inr h
      · exact Or.inl hx

lemma benchmarkT_fst {α β : Type} (f : α → β) (a : α) (dur : ℕ → ℝ) (cfg : Config)
    (fuel : ℕ) : (benchmarkT f a dur cfg fuel).1 = benchmark dur cfg fuel := by
  have h1 := runSeqT_fst f a dur cfg.max_time (initCount cfg) 0 [] []
  simp only [benchmarkT, benchmark]
  rcases hq : runSeqT f a dur cfg.max_time (initCount cfg) 0 [] [] with ⟨r, tr⟩
  rw [hq] at h1
  cases r with
  | error e =>
    rw [← h1]
  | ok t =>
    rw [← h1]
    exact benchLoopT_fst f a dur cfg fuel (initCount cfg) (dropWarmup cfg t) tr

lemma benchmarkT_calls {α β : Type} (f : α → β) (a : α) (dur : ℕ → ℝ) (cfg : Config)
    (fuel : ℕ) : ∀ x ∈ (benchmarkT f a dur cfg fuel).2, x = a := by
  intro x hx
  simp only [benchmarkT] at hx
  rcases hq : runSeqT f a dur cfg.max_time (initCount cfg) 0 [] [] with ⟨r, tr⟩
  rw [hq] at hx
  have htr : ∀ y ∈ tr, y = a := by
    intro y hy
    have hmem : y ∈ (runSeqT f a dur cfg.max_time (initCount cfg) 0 [] []).2 := by
      rw [hq]
      exact hy
    rcases runSeqT_trace f a dur cfg.max_time (initCount cfg) 0 [] [] y hmem with h | h
    · exact absurd h (List.not_mem_nil y)
    · exact h
  cases r with
  | error e => exact htr x hx
  | ok t =>
    rcases benchLoopT_trace f a dur cfg fuel (initCount cfg) (dropWarmup cfg t) tr x hx
      with h | h
    · exact htr x h
    · exact h

/-- C8: on every internal run the target is invoked with exactly the
argument bundle the caller supplied, unchanged, and its return value is
discarded: the recorded invocation trace contains only that bundle, and
the timings result coincides with the target-free semantics, hence does
not depend on the target function at all. -/
theorem benchmark_forwards_arguments (α β : Type) (f g : α → β) (a : α)
    (dur : ℕ → ℝ) (cfg : Config) (fuel : ℕ) :
    (benchmarkT f a dur cfg fuel).1 = benchmark dur cfg fuel
  ∧ (benchmarkT f a dur cfg fuel).1 = (benchmarkT g a dur cfg fuel).1
  ∧ ∀ x ∈ (benchmarkT f a dur cfg fuel).2, x = a := by
  refine ⟨benchmarkT_fst f a dur cfg fuel, ?_, benchmarkT_calls f a dur cfg fuel⟩
  rw [benchmarkT_fst f a dur cfg fuel, benchmarkT_fst g a dur cfg fuel]

end Perfometer
